import Mathlib

/-!
Verification of the asyncstdlib core against its specification.

This file gives a shallow embedding of the core data structures and
operations of the repository: the LRU cache of `_lrucache.py`, the
borrow/scope ownership kernel of `asynctools.py`, and the `tee` fan-out of
`itertools.py`. Asynchronous methods are embedded as pure state
transformers; the single suspension point of a cache miss (awaiting the
wrapped callable) is modelled by splitting `__call__` into the lookup
phase and an explicit resume function applied to the state present when
the awaited result arrives.
-/

set_option autoImplicit false

namespace Asyncstdlib

universe u v

/-! ### LRU cache: `_lrucache.py`

The `OrderedDict` of `CachedLRUAsyncCallable` is modelled as an
association list whose head is the least recently used entry and whose
last element is the most recently used entry. Keys are an abstract type
with decidable equality.
-/

/-- Mirror of `CacheInfo`: hits, misses, maxsize (`none` for an unbounded
cache) and the current number of entries. -/
structure CacheInfo where
  hits : Nat
  misses : Nat
  maxsize : Option Int
  currsize : Nat
deriving DecidableEq

/-- State of `CachedLRUAsyncCallable`: counters, capacity and the access
ordered table of `self.__cache`. -/
structure CachedState (κ : Type u) (ν : Type v) where
  hits : Nat
  misses : Nat
  maxsize : Nat
  cache : List (κ × ν)
deriving DecidableEq

/-- Membership test of the table, `key in self.__cache`. -/
def containsKey {κ : Type u} {ν : Type v} [DecidableEq κ] (k : κ) (c : List (κ × ν)) : Bool :=
  c.any (fun p => decide (p.1 = k))

/-- Lookup of `self.__cache[key]`. -/
def lookupKey {κ : Type u} {ν : Type v} [DecidableEq κ] (k : κ) : List (κ × ν) → Option ν
  | [] => none
  | p :: rest => if p.1 = k then some p.2 else lookupKey k rest

/-- `OrderedDict.move_to_end(key, last=True)`: move the entry of `key` to
the most recently used end, keeping its value. -/
def move_to_end {κ : Type u} {ν : Type v} [DecidableEq κ] (k : κ) (c : List (κ × ν)) : List (κ × ν) :=
  match lookupKey k c with
  | none => c
  | some v => c.filter (fun p => decide (p.1 ≠ k)) ++ [(k, v)]

/-- Assignment `self.__cache[key] = result`: replace the value in place if
the key is present, otherwise append the entry at the most recently used
end. -/
def dict_assign {κ : Type u} {ν : Type v} [DecidableEq κ] (k : κ) (v : ν) (c : List (κ × ν)) : List (κ × ν) :=
  if containsKey k c then c.map (fun p => if p.1 = k then (k, v) else p)
  else c ++ [(k, v)]

/-- Resume point of `CachedLRUAsyncCallable.__call__` after
`result = await self.__wrapped__(...)`: if the key appeared in the table
while the call was pending, do nothing to the table; otherwise evict the
least recently used entry when at capacity (`popitem(last=False)`), then
insert the new entry at the most recently used end. -/
def cached_resume {κ : Type u} {ν : Type v} [DecidableEq κ] (k : κ) (v : ν)
    (st : CachedState κ ν) : CachedState κ ν :=
  if containsKey k st.cache then st
  else if st.maxsize ≤ st.cache.length then
    { st with cache := dict_assign k v (st.cache.drop 1) }
  else
    { st with cache := dict_assign k v st.cache }

/-- One sequential call of `CachedLRUAsyncCallable.__call__` with argument
key `k`, where `f` is the wrapped callable: a hit moves the entry to the
most recently used end and counts a hit; a miss counts a miss, awaits the
wrapped callable and resumes with its result. -/
def cached_call {κ : Type u} {ν : Type v} [DecidableEq κ] (f : κ → ν) (k : κ)
    (st : CachedState κ ν) : ν × CachedState κ ν :=
  match lookupKey k st.cache with
  | some v => (v, { st with cache := move_to_end k st.cache, hits := st.hits + 1 })
  | none =>
      let v := f k
      (v, cached_resume k v { st with misses := st.misses + 1 })

/-- `CachedLRUAsyncCallable.cache_info`. -/
def cached_cache_info {κ : Type u} {ν : Type v} (st : CachedState κ ν) : CacheInfo :=
  ⟨st.hits, st.misses, some (st.maxsize : Int), st.cache.length⟩

/-- Fresh state of `CachedLRUAsyncCallable` with capacity `m`. -/
def cached_init (κ : Type u) (ν : Type v) (m : Nat) : CachedState κ ν :=
  ⟨0, 0, m, []⟩

/-- Sequence of calls against the bounded cache, returning the final state. -/
def cached_seq {κ : Type u} {ν : Type v} [DecidableEq κ] (f : κ → ν) (ks : List κ)
    (st : CachedState κ ν) : CachedState κ ν :=
  ks.foldl (fun s k => (cached_call f k s).2) st

/-- State of `MemoizedLRUAsyncCallable`: counters and the unbounded table. -/
structure MemoState (κ : Type u) (ν : Type v) where
  hits : Nat
  misses : Nat
  cache : List (κ × ν)
deriving DecidableEq

/-- Resume point of `MemoizedLRUAsyncCallable.__call__` after awaiting the
wrapped callable: store the result only if the key is still absent. -/
def memoized_resume {κ : Type u} {ν : Type v} [DecidableEq κ] (k : κ) (v : ν)
    (st : MemoState κ ν) : MemoState κ ν :=
  if containsKey k st.cache then st
  else { st with cache := dict_assign k v st.cache }

/-- One sequential call of `MemoizedLRUAsyncCallable.__call__`. -/
def memoized_call {κ : Type u} {ν : Type v} [DecidableEq κ] (f : κ → ν) (k : κ)
    (st : MemoState κ ν) : ν × MemoState κ ν :=
  match lookupKey k st.cache with
  | some v => (v, { st with hits := st.hits + 1 })
  | none =>
      let v := f k
      (v, memoized_resume k v { st with misses := st.misses + 1 })

/-- State of `UncachedLRUAsyncCallable` plus an instrumentation counter of
how many times `await self.__wrapped__(...)` has run. -/
structure UncachedState where
  misses : Nat
  wrapped_calls : Nat
deriving DecidableEq

/-- `UncachedLRUAsyncCallable.__call__`: count a miss and invoke the
wrapped callable, storing nothing. -/
def uncached_call (st : UncachedState) : UncachedState :=
  { misses := st.misses + 1, wrapped_calls := st.wrapped_calls + 1 }

/-- `UncachedLRUAsyncCallable.cache_info`: `CacheInfo(0, self.__misses, 0, 0)`. -/
def uncached_cache_info (st : UncachedState) : CacheInfo :=
  ⟨0, st.misses, some 0, 0⟩

/-- Fresh state of `UncachedLRUAsyncCallable`. -/
def uncached_init : UncachedState := ⟨0, 0⟩

/-- The wrapper class chosen by `lru_cache` and `lru_decorator` for a given
`maxsize` argument. -/
inductive LruMode where
  | uncached : LruMode
  | memoized : LruMode
  | cached (maxsize : Nat) : LruMode
deriving DecidableEq

/-- Dispatch of `lru_cache`/`lru_decorator` on an integer or `None`
`maxsize`: a negative integer is replaced by 0, `None` selects the
memoized wrapper, 0 the uncached wrapper, and a positive integer the
bounded wrapper of that capacity. -/
def lru_cache_mode : Option Int → LruMode
  | none => LruMode.memoized
  | some m =>
      let m2 : Int := if m < 0 then 0 else m
      if m2 = 0 then LruMode.uncached else LruMode.cached m2.toNat

/-! ### Cache keys: `CallKey.from_call`

Call arguments are modelled by a small universe of hashable Python scalar
values. Equality between stored keys follows Python `==` semantics, under
which `True == 1` and `False == 0` while `int` and `str` values never
compare equal across types. `CallKey.__eq__` first checks that both sides
are `CallKey` instances and then compares the value tuples elementwise.
-/

/-- Hashable scalar argument values: Python `int`, `bool` and `str`. -/
inductive PyVal where
  | vint (n : Int) : PyVal
  | vbool (b : Bool) : PyVal
  | vstr (s : String) : PyVal
deriving DecidableEq

/-- Python `==` on argument values: `True == 1` and `False == 0`, all other
cross-type comparisons are false. -/
def pyEq : PyVal → PyVal → Bool
  | PyVal.vint a, PyVal.vint b => decide (a = b)
  | PyVal.vint a, PyVal.vbool b => decide (a = (if b then 1 else 0))
  | PyVal.vbool a, PyVal.vint b => decide ((if a then 1 else (0 : Int)) = b)
  | PyVal.vbool a, PyVal.vbool b => decide (a = b)
  | PyVal.vstr a, PyVal.vstr b => decide (a = b)
  | _, _ => false

/-- `type(v).__name__` of a scalar value. -/
def type_of : PyVal → String
  | PyVal.vint _ => "int"
  | PyVal.vbool _ => "bool"
  | PyVal.vstr _ => "str"

/-- `type(v) in fast_types` with `fast_types = (int, str)`. The type is
compared exactly, so `bool` (a subclass of `int`) is not a fast type. -/
def is_fast_type : PyVal → Bool
  | PyVal.vint _ => true
  | PyVal.vstr _ => true
  | PyVal.vbool _ => false

/-- Elements of the key tuple built by `CallKey.from_call`: a positional
argument value, the unique `kwarg_sentinel` object, a keyword item
`(name, value)`, or a type object appended in typed mode. -/
inductive KeyElem where
  | arg (v : PyVal) : KeyElem
  | kwmark : KeyElem
  | kw (name : String) (v : PyVal) : KeyElem
  | ty (t : String) : KeyElem
deriving DecidableEq

/-- Python `==` on key tuple elements. The sentinel is an `object()` equal
only to itself; keyword items are `(str, value)` pairs; type objects
compare by identity. -/
def pyElemEq : KeyElem → KeyElem → Bool
  | KeyElem.arg a, KeyElem.arg b => pyEq a b
  | KeyElem.kwmark, KeyElem.kwmark => true
  | KeyElem.kw n a, KeyElem.kw m b => decide (n = m) && pyEq a b
  | KeyElem.ty a, KeyElem.ty b => decide (a = b)
  | _, _ => false

/-- Python `==` on key tuples: elementwise comparison of equal-length
tuples. -/
def pyTupleEq : List KeyElem → List KeyElem → Bool
  | [], [] => true
  | a :: arest, b :: brest => pyElemEq a b && pyTupleEq arest brest
  | _, _ => false

/-- Result of `CallKey.from_call`: either a raw fast scalar used directly
as the key, or a `CallKey` wrapper around the value tuple. -/
inductive CacheKey where
  | fast (v : PyVal) : CacheKey
  | wrapped (values : List KeyElem) : CacheKey
deriving DecidableEq

/-- Python `==` between cache keys as used by the dict: a raw scalar never
equals a `CallKey` (`CallKey.__eq__` checks `type(self) is type(other)`,
and scalar equality against a `CallKey` is false), raw scalars compare by
Python `==`, and `CallKey` wrappers compare their value tuples. -/
def keyEq : CacheKey → CacheKey → Bool
  | CacheKey.fast a, CacheKey.fast b => pyEq a b
  | CacheKey.wrapped a, CacheKey.wrapped b => pyTupleEq a b
  | _, _ => false

/-- The key tuple of `CallKey.from_call`:
`args if not kwds else (*args, kwarg_sentinel, *kwds.items())`, extended in
typed mode by the types of the positional arguments and, when keyword
arguments are present, the types of the keyword values. The keyword items
appear in dict insertion order, i.e. in call-site order. -/
def make_key (args : List PyVal) (kwds : List (String × PyVal)) (typed : Bool) : List KeyElem :=
  let key : List KeyElem :=
    if kwds.isEmpty then args.map KeyElem.arg
    else args.map KeyElem.arg ++ KeyElem.kwmark :: kwds.map (fun p => KeyElem.kw p.1 p.2)
  if typed then
    key ++
      (if kwds.isEmpty then args.map (fun a => KeyElem.ty (type_of a))
       else args.map (fun a => KeyElem.ty (type_of a))
         ++ kwds.map (fun p => KeyElem.ty (type_of p.2)))
  else key

/-- `CallKey.from_call`: build the key tuple; in untyped mode a key of
exactly one fast-type positional argument is returned raw, otherwise the
tuple is wrapped in a `CallKey`. -/
def from_call (args : List PyVal) (kwds : List (String × PyVal)) (typed : Bool) : CacheKey :=
  let key := make_key args kwds typed
  if typed then CacheKey.wrapped key
  else
    match key with
    | [KeyElem.arg v] => if is_fast_type v then CacheKey.fast v else CacheKey.wrapped key
    | _ => CacheKey.wrapped key

/-- Modelled from the spec: uniform key construction without the fast-path
branch, wrapping every key tuple in a `CallKey`. Used to compare the
fast-path keying of `CallKey.from_call` against uniform wrapping. -/
def from_call_uniform (args : List PyVal) (kwds : List (String × PyVal)) (typed : Bool) : CacheKey :=
  CacheKey.wrapped (make_key args kwds typed)

/-! ### Ownership kernel: `asynctools.py`

An underlying async iterator is modelled by its remaining items, the
number of times its `aclose` has run, and whether it has an `aclose`
method at all. A handle is the underlying iterator together with a stack
of wrappers: each `borrow` pushes a `_BorrowedAsyncIterator` layer and
each scope entry pushes a `_ScopedAsyncIterator` layer. Every layer keeps
the closed flag of its private `_wrapped_iterator` generator.
-/

/-- Underlying async iterator: remaining items, number of completed
`aclose` calls on it, and whether it exposes `aclose`. -/
structure BaseIter (α : Type u) where
  items : List α
  closes : Nat
  has_aclose : Bool
deriving DecidableEq

/-- `__anext__` of the underlying iterator: a closed async generator
raises `StopAsyncIteration`, otherwise the next item is produced or the
iterator reports exhaustion. -/
def base_anext {α : Type u} (b : BaseIter α) : Option α × BaseIter α :=
  if b.closes ≠ 0 then (none, b)
  else
    match b.items with
    | [] => (none, b)
    | x :: xs => (some x, { b with items := xs })

/-- The kind of a wrapper layer: `_BorrowedAsyncIterator` from `borrow`,
or `_ScopedAsyncIterator` from entering `scoped_iter`. -/
inductive WrapKind where
  | borrowedW : WrapKind
  | scopedW : WrapKind
deriving DecidableEq

/-- A handle: wrapper layers (outermost first, each with the closed flag
of its private wrapper generator) over the underlying iterator. -/
structure Handle (α : Type u) where
  wraps : List (WrapKind × Bool)
  base : BaseIter α
deriving DecidableEq

/-- `aclose` on a handle. On a bare underlying iterator it runs that
iterator `aclose` when present (absent `aclose` means nothing happens).
On a `_BorrowedAsyncIterator` it runs `_aclose_wrapper`, which closes only
the private wrapper generator of that layer and never touches what it
wraps. On a `_ScopedAsyncIterator` the override `async def aclose: pass`
does nothing at all. -/
def handle_aclose {α : Type u} (h : Handle α) : Handle α :=
  match h.wraps with
  | [] =>
      if h.base.has_aclose then { h with base := { h.base with closes := h.base.closes + 1 } }
      else h
  | (WrapKind.borrowedW, _) :: rest => { h with wraps := (WrapKind.borrowedW, true) :: rest }
  | (WrapKind.scopedW, w) :: rest => { h with wraps := (WrapKind.scopedW, w) :: rest }

/-- `borrow(iterator)`: wrap the handle in a `_BorrowedAsyncIterator`
whose private wrapper generator starts open. -/
def borrow {α : Type u} (h : Handle α) : Handle α :=
  { h with wraps := (WrapKind.borrowedW, false) :: h.wraps }

/-- `__anext__` through the wrapper layers: a closed wrapper generator
raises `StopAsyncIteration`, an open one forwards to what it wraps. -/
def wraps_anext {α : Type u} : List (WrapKind × Bool) → BaseIter α → Option α × BaseIter α
  | [], b => base_anext b
  | (_, closed) :: rest, b =>
      if closed then (none, b) else wraps_anext rest b

/-- `__anext__` of a handle. -/
def handle_anext {α : Type u} (h : Handle α) : Option α × Handle α :=
  let r := wraps_anext h.wraps h.base
  (r.1, { h with base := r.2 })

/-- `scoped_iter(iterable).__aenter__`: a handle that is already a
`_BorrowedAsyncIterator` or `_ScopedAsyncIterator` is not unwrapped and
gets a fresh `_ScopedAsyncIterator` layer; a bare iterator with `aclose`
gets the same treatment after `aiter` (which returns an async iterator
unchanged); a bare iterator without `aclose` is handed out as-is through
`nullcontext`. -/
def scoped_enter {α : Type u} (h : Handle α) : Handle α :=
  match h.wraps with
  | _ :: _ => { h with wraps := (WrapKind.scopedW, false) :: h.wraps }
  | [] =>
      if h.base.has_aclose then { h with wraps := [(WrapKind.scopedW, false)] }
      else h

/-- Effect of `__aexit__` of `scoped_iter(iterable)` on the handle that
was passed in, for any exit path `exc` (the Python `__aexit__` ignores its
exception arguments). `_ScopedAsyncIteratorContext.__aexit__` first closes
the private wrapper generator of the `_ScopedAsyncIterator` it created on
entry (which touches neither `h` nor the underlying iterator) and then
runs `aclose` of the stored iterator `h`; `nullcontext.__aexit__` does
nothing. -/
def scoped_exit {α : Type u} (exc : Bool) (h : Handle α) : Handle α :=
  match h.wraps with
  | _ :: _ => handle_aclose h
  | [] => if h.base.has_aclose then handle_aclose h else h

/-! ### Fan-out: `tee` of `itertools.py`

The shared state of a `tee` group is the remaining upstream items, one
buffer slot per peer (`none` once the peer removed its buffer from the
sibling list), whether the shared upstream iterator has an `aclose`
method, and how many times that `aclose` has run. A sequential drain of
one peer follows the loop of `tee_peer` with the no-contention lock
semantics: pop the private buffer when non-empty, otherwise advance the
upstream and append the item to every sibling buffer before popping the
own buffer, and on exhaustion remove the own buffer and close the
upstream when the sibling list became empty and `aclose` exists.
-/

/-- Shared state of a `tee` fan-out group. -/
structure TeeState (α : Type u) where
  upstream : List α
  buffers : List (Option (List α))
  has_aclose : Bool
  upstream_closes : Nat
deriving DecidableEq

/-- Append a produced item to every sibling buffer still in the list. -/
def append_all {α : Type u} (x : α) (bufs : List (Option (List α))) : List (Option (List α)) :=
  bufs.map (fun b => b.map (fun l => l ++ [x]))

/-- Whether the sibling list has become empty (`if not peers`). -/
def all_removed {α : Type u} (bufs : List (Option (List α))) : Bool :=
  bufs.all (fun b => b.isNone)

/-- The `finally` clause of `tee_peer`: remove the own buffer from the
sibling list; if it was the last one and the upstream iterator has an
`aclose` method, close the upstream. -/
def finish_peer {α : Type u} (i : Nat) (st : TeeState α) : TeeState α :=
  let bufs2 := st.buffers.set i none
  { st with
    buffers := bufs2,
    upstream_closes :=
      st.upstream_closes + (if all_removed bufs2 && st.has_aclose then 1 else 0) }

/-- Termination measure of a sequential peer drain: own buffer length plus
remaining upstream length. -/
def peer_measure {α : Type u} (i : Nat) (st : TeeState α) : Nat :=
  (match st.buffers[i]? with
   | some (some b) => b.length
   | _ => 0) + st.upstream.length

/-- Drain one peer of the fan-out to exhaustion, sequentially: the loop of
`tee_peer`. Yields the buffered front when the private buffer is
non-empty; otherwise advances the upstream, appends the item to every
sibling buffer including the own one and pops the own buffer; on upstream
exhaustion runs the `finally` clause. A peer whose buffer was already
removed yields nothing. -/
def tee_peer_drain {α : Type u} (i : Nat) (st : TeeState α) : List α × TeeState α :=
  match hb : st.buffers[i]? with
  | some (some (x :: rest)) =>
      (x :: (tee_peer_drain i { st with buffers := st.buffers.set i (some rest) }).1,
        (tee_peer_drain i { st with buffers := st.buffers.set i (some rest) }).2)
  | some (some []) =>
      match hu : st.upstream with
      | [] => ([], finish_peer i st)
      | u :: us =>
          match hb2 : (append_all u st.buffers)[i]? with
          | some (some (y :: rest)) =>
              (y :: (tee_peer_drain i
                  { st with
                    upstream := us
                    buffers := (append_all u st.buffers).set i (some rest) }).1,
                (tee_peer_drain i
                  { st with
                    upstream := us
                    buffers := (append_all u st.buffers).set i (some rest) }).2)
          | _ => ([], st)
  | _ => ([], st)
termination_by peer_measure i st
decreasing_by
  · have hlt : i < st.buffers.length := (List.getElem?_eq_some.mp hb).1
    have hset : (st.buffers.set i (some rest))[i]? = some (some rest) := by
      rw [List.getElem?_set_eq_of_lt _ hlt]
    simp only [peer_measure, hset, hb, List.length_cons]
    exact Nat.add_lt_add_right (Nat.lt_succ_self _) _
  · have hlt2 : i < (append_all u st.buffers).length := (List.getElem?_eq_some.mp hb2).1
    have hmap : (append_all u st.buffers)[i]? = some (some ([] ++ [u])) := by
      simp [append_all, List.getElem?_map, hb]
    have hrest : rest = [] := by
      have h2 := hmap.symm.trans hb2
      simp only [List.nil_append, Option.some.injEq, List.cons.injEq] at h2
      exact h2.2.symm
    subst hrest
    have hset2 : ((append_all u st.buffers).set i (some []))[i]? = some (some []) := by
      rw [List.getElem?_set_eq_of_lt _ hlt2]
    simp only [peer_measure, hset2, hb, hu, List.length_cons, List.length_nil]
    omega

/-- Drain the listed peers one at a time, in order, collecting the items
each peer yields. -/
def drain_seq {α : Type u} (order : List Nat) (st : TeeState α) : List (List α) × TeeState α :=
  match order with
  | [] => ([], st)
  | i :: rest =>
      let r := tee_peer_drain i st
      let r2 := drain_seq rest r.2
      (r.1 :: r2.1, r2.2)

/-- The state a sequential peer drain ends in, in closed form: the
upstream is exhausted, every sibling buffer that is still in the list has
received the drained upstream items, and the draining peer ran the
`finally` clause, removing its own buffer and closing the upstream when
it was the last peer. -/
def tee_final {α : Type u} (i : Nat) (st : TeeState α) : TeeState α :=
  finish_peer i
    { st with
      upstream := [],
      buffers := st.buffers.map (fun b => b.map (fun l => l ++ st.upstream)) }

/-- The iterable handed to `tee`: either a synchronous iterable, which
`aiter` wraps in the fresh `_aiter_sync` async generator (owned by the
fan-out and exposing `aclose`), or an already-existing async iterator,
which `aiter` returns unchanged and which may or may not expose
`aclose`. -/
inductive TeeSource (α : Type u) where
  | fromSync (items : List α) : TeeSource α
  | fromAsyncIter (items : List α) (has_aclose : Bool) : TeeSource α
deriving DecidableEq

/-- The item sequence of a `tee` source. -/
def source_items {α : Type u} : TeeSource α → List α
  | TeeSource.fromSync items => items
  | TeeSource.fromAsyncIter items _ => items

/-- Whether `aiter` applied to the source yields an iterator with an
`aclose` method. -/
def source_has_aclose {α : Type u} : TeeSource α → Bool
  | TeeSource.fromSync _ => true
  | TeeSource.fromAsyncIter _ h => h

/-- `Tee.__init__` body: normalize the iterable with `aiter` and create
`n` empty buffers and the matching peers. -/
def tee_init {α : Type u} (src : TeeSource α) (n : Nat) : TeeState α :=
  { upstream := source_items src,
    buffers := List.replicate n (some []),
    has_aclose := source_has_aclose src,
    upstream_closes := 0 }

/-- Error taxonomy of the specification for `tee` construction. -/
inductive TeeError where
  | invalidArgument : TeeError
deriving DecidableEq

/-- `tee(iterable, n)` as a fallible constructor. `Tee.__init__` performs
no validation of `n`: it builds `range(n)` buffers, and `range` of a
non-positive integer is empty, so construction always succeeds. -/
def tee_new {α : Type u} (src : TeeSource α) (n : Int) : Except TeeError (TeeState α) :=
  Except.ok (tee_init src n.toNat)

/-- `len(tee(...))`: the number of peers. -/
def tee_peer_count {α : Type u} (st : TeeState α) : Nat :=
  st.buffers.length

/-! ### Helper lemmas on the cache table -/

theorem lookupKey_eq_none {κ : Type u} {ν : Type v} [DecidableEq κ] (k : κ)
    (c : List (κ × ν)) (h : containsKey k c = false) : lookupKey k c = none := by
  induction c with
  | nil => rfl
  | cons p rest ih =>
      simp only [containsKey, List.any_cons, Bool.or_eq_false_iff,
        decide_eq_false_iff_not] at h
      simp only [lookupKey, if_neg h.1]
      exact ih (by simpa [containsKey] using h.2)

theorem containsKey_drop_one {κ : Type u} {ν : Type v} [DecidableEq κ] (k : κ)
    (c : List (κ × ν)) (h : containsKey k c = false) :
    containsKey k (c.drop 1) = false := by
  cases c with
  | nil => rfl
  | cons p rest =>
      simp only [containsKey, List.any_cons, Bool.or_eq_false_iff] at h
      simpa [containsKey] using h.2

/-- Claim C4: with capacity k greater than 0, a miss arriving at a full
table evicts exactly the least recently used entry (the head of the access
ordered table) and inserts the new key at the most recently used end;
recency is refreshed by hits, so with k equal to 2 the call sequence with
keys 0, 1, 0, 2 evicts key 1 and leaves exactly the keys 0 and 2 cached. -/
theorem lru_eviction (f : ℕ → ℕ) (st : CachedState ℕ ℕ) (k : ℕ)
    (hmiss : containsKey k st.cache = false)
    (hfull : st.cache.length = st.maxsize) (hpos : 0 < st.maxsize) :
    (cached_call f k st).2.cache = st.cache.drop 1 ++ [(k, f k)] ∧
    (cached_seq (fun j => j + 100) [0, 1, 0, 2] (cached_init ℕ ℕ 2)).cache.map Prod.fst
      = [0, 2] := by
  constructor
  · simp only [cached_call, lookupKey_eq_none k st.cache hmiss, cached_resume, hmiss,
      Bool.false_eq_true, if_false, hfull.symm, le_refl, if_true, dict_assign,
      containsKey_drop_one k st.cache hmiss]
  · rfl

/-- Concrete instance of `lru_eviction`: a full table of capacity 2 with
entries for keys 5 and 6 takes a miss on key 7, evicts key 5 and stores
key 7 at the most recently used end. -/
theorem lru_eviction_witness :
    containsKey 7 ([(5, 5), (6, 6)] : List (ℕ × ℕ)) = false ∧
    ([(5, 5), (6, 6)] : List (ℕ × ℕ)).length = 2 ∧
    ((cached_call (fun j => j) 7 ⟨0, 0, 2, [(5, 5), (6, 6)]⟩).2.cache
        = ([(5, 5), (6, 6)] : List (ℕ × ℕ)).drop 1 ++ [(7, 7)] ∧
      (cached_seq (fun j => j + 100) [0, 1, 0, 2] (cached_init ℕ ℕ 2)).cache.map Prod.fst
        = [0, 2]) :=
  ⟨by decide, by decide,
    lru_eviction (fun j => j) ⟨0, 0, 2, [(5, 5), (6, 6)]⟩ 7 (by decide) (by decide)
      (by decide)⟩

/-- Claim C5: when the computation of a miss for key k resolves while k is
already present in the table (a concurrent duplicate call finished
first), the resume step leaves the table untouched in both the bounded
and the unbounded cache: the late result never overwrites the stored
entry. -/
theorem first_writer_wins (k v : ℕ) (st : CachedState ℕ ℕ) (mst : MemoState ℕ ℕ)
    (h1 : containsKey k st.cache = true) (h2 : containsKey k mst.cache = true) :
    cached_resume k v st = st ∧ memoized_resume k v mst = mst := by
  constructor
  · simp [cached_resume, h1]
  · simp [memoized_resume, h2]

/-- Concrete instance of `first_writer_wins`: key 1 already stores value 5
when a late duplicate computation delivers value 9; the table keeps 5. -/
theorem first_writer_wins_witness :
    containsKey 1 ([(1, 5)] : List (ℕ × ℕ)) = true ∧
    cached_resume 1 9 ⟨0, 1, 4, [(1, 5)]⟩ = (⟨0, 1, 4, [(1, 5)]⟩ : CachedState ℕ ℕ) ∧
    memoized_resume 1 9 ⟨0, 1, [(1, 5)]⟩ = (⟨0, 1, [(1, 5)]⟩ : MemoState ℕ ℕ) :=
  ⟨by decide,
    (first_writer_wins 1 9 ⟨0, 1, 4, [(1, 5)]⟩ ⟨0, 1, [(1, 5)]⟩ (by decide) (by decide)).1,
    (first_writer_wins 1 9 ⟨0, 1, 4, [(1, 5)]⟩ ⟨0, 1, [(1, 5)]⟩ (by decide) (by decide)).2⟩

theorem uncached_iterate (n : Nat) (st : UncachedState) :
    uncached_call^[n] st = ⟨st.misses + n, st.wrapped_calls + n⟩ := by
  induction n generalizing st with
  | zero => simp
  | succ n ih =>
      rw [Function.iterate_succ_apply, ih]
      simp only [uncached_call, UncachedState.mk.injEq]
      omega

/-- Claim C10: a negative integer maxsize is accepted by `lru_cache`, is
coerced to 0, and selects the disabled cache: after any number of calls
the wrapped callable ran once per call, every call counted as a miss, and
`cache_info` reports zero hits and zero current size. -/
theorem negative_maxsize_disables (m : Int) (hm : m < 0) (n : Nat) :
    lru_cache_mode (some m) = LruMode.uncached ∧
    (uncached_call^[n] uncached_init).misses = n ∧
    (uncached_call^[n] uncached_init).wrapped_calls = n ∧
    uncached_cache_info (uncached_call^[n] uncached_init) = ⟨0, n, some 0, 0⟩ := by
  refine ⟨?_, ?_, ?_, ?_⟩
  · simp [lru_cache_mode, hm]
  · rw [uncached_iterate]; simp [uncached_init]
  · rw [uncached_iterate]; simp [uncached_init]
  · rw [uncached_iterate]; simp [uncached_init, uncached_cache_info]

/-- Concrete instance of `negative_maxsize_disables` at maxsize -5 and
three calls. -/
theorem negative_maxsize_disables_witness :
    (-5 : Int) < 0 ∧
    (lru_cache_mode (some (-5)) = LruMode.uncached ∧
      (uncached_call^[3] uncached_init).misses = 3 ∧
      (uncached_call^[3] uncached_init).wrapped_calls = 3 ∧
      uncached_cache_info (uncached_call^[3] uncached_init) = ⟨0, 3, some 0, 0⟩) :=
  ⟨by decide, negative_maxsize_disables (-5) (by decide) 3⟩

/-! ### Helper lemmas on cache key equality -/

theorem pyEq_refl (v : PyVal) : pyEq v v = true := by
  cases v <;> simp [pyEq]

theorem pyElemEq_refl (e : KeyElem) : pyElemEq e e = true := by
  cases e <;> simp [pyElemEq, pyEq_refl]

theorem pyTupleEq_refl (l : List KeyElem) : pyTupleEq l l = true := by
  induction l with
  | nil => rfl
  | cons e rest ih => simp [pyTupleEq, pyElemEq_refl, ih]

theorem keyEq_refl (k : CacheKey) : keyEq k k = true := by
  cases k with
  | fast v => simp [keyEq, pyEq_refl]
  | wrapped l => simp [keyEq, pyTupleEq_refl]

theorem pyTupleEq_append_left (xs l1 l2 : List KeyElem) :
    pyTupleEq (xs ++ l1) (xs ++ l2) = pyTupleEq l1 l2 := by
  induction xs with
  | nil => rfl
  | cons e rest ih => simp [pyTupleEq, pyElemEq_refl, ih]

theorem from_call_with_kwds (args : List PyVal) (p : String × PyVal)
    (kwds : List (String × PyVal)) :
    from_call args (p :: kwds) false
      = CacheKey.wrapped (make_key args (p :: kwds) false) := by
  cases args with
  | nil => simp [from_call, make_key]
  | cons a rest =>
      cases rest with
      | nil => simp [from_call, make_key]
      | cons b rest2 => simp [from_call, make_key]

/-- Claim C6 counterexample: the same keyword bindings written in the two
possible orders produce unequal cache keys, so the second call is not a
hit against the first. -/
theorem kwarg_order_counterexample :
    keyEq (from_call [] [("a", PyVal.vint 1), ("b", PyVal.vint 2)] false)
        (from_call [] [("b", PyVal.vint 2), ("a", PyVal.vint 1)] false) = false := by
  decide

/-- Claim C6 (amended): the cache key records keyword items in dict
insertion order, i.e. call-site order. A call repeating the same
positional arguments and the same keyword sequence in the same order
produces an equal key (a hit), while swapping two adjacent distinct
keyword names produces an unequal key, so the reordered call is a miss. -/
theorem kwarg_order_sensitive (args : List PyVal) (kwds : List (String × PyVal))
    (typed : Bool) (n1 n2 : String) (v1 v2 : PyVal) (h : n1 ≠ n2) :
    keyEq (from_call args kwds typed) (from_call args kwds typed) = true ∧
    keyEq (from_call args ((n1, v1) :: (n2, v2) :: kwds) false)
        (from_call args ((n2, v2) :: (n1, v1) :: kwds) false) = false := by
  refine ⟨keyEq_refl _, ?_⟩
  rw [from_call_with_kwds, from_call_with_kwds]
  simp only [keyEq, make_key, List.isEmpty_cons, Bool.false_eq_true, if_false,
    List.map_cons]
  rw [pyTupleEq_append_left]
  simp [pyTupleEq, pyElemEq, h]

/-- Concrete instance of `kwarg_order_sensitive` with keyword names a, b. -/
theorem kwarg_order_sensitive_witness :
    ("a" : String) ≠ "b" ∧
    (keyEq (from_call [] [] false) (from_call [] [] false) = true ∧
      keyEq (from_call [] [("a", PyVal.vint 1), ("b", PyVal.vint 2)] false)
          (from_call [] [("b", PyVal.vint 2), ("a", PyVal.vint 1)] false) = false) :=
  ⟨by decide, kwarg_order_sensitive [] [] false "a" "b" (PyVal.vint 1) (PyVal.vint 2)
    (by decide)⟩

theorem pyEq_symm (a b : PyVal) : pyEq a b = pyEq b a := by
  cases a <;> cases b <;> simp [pyEq, eq_comm]

theorem pyElemEq_symm (a b : KeyElem) : pyElemEq a b = pyElemEq b a := by
  cases a <;> cases b <;> simp [pyElemEq, pyEq_symm, eq_comm]

theorem pyTupleEq_symm (l1 l2 : List KeyElem) : pyTupleEq l1 l2 = pyTupleEq l2 l1 := by
  induction l1 generalizing l2 with
  | nil => cases l2 <;> rfl
  | cons a t ih =>
      cases l2 with
      | nil => rfl
      | cons b t2 =>
          simp only [pyTupleEq]
          rw [pyElemEq_symm, ih]

theorem from_call_typed (args : List PyVal) (kwds : List (String × PyVal)) :
    from_call args kwds true = from_call_uniform args kwds true := by
  simp [from_call, from_call_uniform]

theorem from_call_untyped_cases (a : List PyVal) (kw : List (String × PyVal)) :
    from_call a kw false = from_call_uniform a kw false ∨
    (∃ v, a = [v] ∧ kw = [] ∧ is_fast_type v = true ∧
      from_call a kw false = CacheKey.fast v) := by
  cases kw with
  | cons p rest => exact Or.inl (from_call_with_kwds a p rest)
  | nil =>
      cases a with
      | nil => exact Or.inl rfl
      | cons v rest =>
          cases rest with
          | cons w rest2 => exact Or.inl rfl
          | nil =>
              by_cases hf : is_fast_type v = true
              · exact Or.inr ⟨v, rfl, rfl, hf, by simp [from_call, make_key, hf]⟩
              · refine Or.inl ?_
                simp [from_call, from_call_uniform, make_key, hf]

/-- Claim C7 counterexample: the calls with single argument 1 and single
argument True map to distinct cache entries under the fast-path keying
(raw 1 against a CallKey of True), yet under uniform CallKey wrapping
they map to the same entry because Python compares True equal to 1. The
fast path therefore changes which pairs of calls share a cache entry. -/
theorem fast_path_counterexample :
    ¬ (keyEq (from_call [PyVal.vint 1] [] false) (from_call [PyVal.vbool true] [] false)
        = keyEq (from_call_uniform [PyVal.vint 1] [] false)
            (from_call_uniform [PyVal.vbool true] [] false)) := by
  decide

/-- Claim C7 (amended): the fast-path keying is not semantically neutral,
but it deviates from uniform CallKey construction in only one direction:
whenever two calls map to the same cache entry under the fast-path keying
they also would under uniform CallKey wrapping, for every pair of calls
and both typed modes. The fast path can therefore only split entries that
uniform keying would conflate — pairs of single arguments that Python
compares equal across types with equal hashes, such as 1 against True —
and never merges entries that uniform keying keeps distinct. -/
theorem fast_path_refines (a1 a2 : List PyVal) (kw1 kw2 : List (String × PyVal))
    (typed : Bool)
    (h : keyEq (from_call a1 kw1 typed) (from_call a2 kw2 typed) = true) :
    keyEq (from_call_uniform a1 kw1 typed) (from_call_uniform a2 kw2 typed) = true := by
  cases typed with
  | true =>
      rw [from_call_typed, from_call_typed] at h
      exact h
  | false =>
      rcases from_call_untyped_cases a1 kw1 with hu1 | ⟨v1, ha1, hk1, hf1, he1⟩ <;>
        rcases from_call_untyped_cases a2 kw2 with hu2 | ⟨v2, ha2, hk2, hf2, he2⟩
      · rw [hu1, hu2] at h
        exact h
      · rw [hu1, he2] at h
        simp [from_call_uniform, keyEq] at h
      · rw [he1, hu2] at h
        simp [from_call_uniform, keyEq] at h
      · subst ha1; subst hk1; subst ha2; subst hk2
        rw [he1, he2] at h
        simp only [keyEq] at h
        have hm1 : make_key [v1] [] false = [KeyElem.arg v1] := by simp [make_key]
        have hm2 : make_key [v2] [] false = [KeyElem.arg v2] := by simp [make_key]
        simp [from_call_uniform, hm1, hm2, keyEq, pyTupleEq, pyElemEq, h]

/-- Concrete instance of `fast_path_refines`: two calls on the fast path
that share an entry there also share it under uniform wrapping. -/
theorem fast_path_refines_witness :
    keyEq (from_call [PyVal.vint 3] [] false) (from_call [PyVal.vint 3] [] false) = true ∧
    keyEq (from_call_uniform [PyVal.vint 3] [] false)
        (from_call_uniform [PyVal.vint 3] [] false) = true :=
  ⟨by decide,
    fast_path_refines [PyVal.vint 3] [PyVal.vint 3] [] [] false (by decide)⟩

/-! ### Helper lemmas on handles -/

theorem borrow_iterate (d : Nat) {α : Type u} (h : Handle α) :
    (borrow^[d] h).wraps = List.replicate d (WrapKind.borrowedW, false) ++ h.wraps ∧
    (borrow^[d] h).base = h.base := by
  induction d with
  | zero => simp
  | succ d ih =>
      rw [Function.iterate_succ_apply']
      refine ⟨?_, ?_⟩
      · simp [borrow, ih.1, List.replicate_succ]
      · simp [borrow, ih.2]

theorem handle_aclose_of_wrapped {α : Type u} (h : Handle α) (hw : h.wraps ≠ []) :
    (handle_aclose h).base = h.base ∧ (handle_aclose h).wraps ≠ [] := by
  rcases h with ⟨wraps, b⟩
  cases wraps with
  | nil => exact absurd rfl hw
  | cons p rest =>
      rcases p with ⟨kind, closed⟩
      cases kind <;> simp [handle_aclose]

theorem handle_aclose_iterate {α : Type u} (k : Nat) (h : Handle α) (hw : h.wraps ≠ []) :
    (handle_aclose^[k] h).base = h.base := by
  induction k generalizing h with
  | zero => rfl
  | succ k ih =>
      rw [Function.iterate_succ_apply]
      rw [ih (handle_aclose h) (handle_aclose_of_wrapped h hw).2]
      exact (handle_aclose_of_wrapped h hw).1

/-- Claim C2: for an iterator with a closable resource, one enter and exit
of `scoped_iter` runs the underlying `aclose` exactly once, for any exit
path (the flags model a raising and a non-raising body); and for the
handle a scope hands to its body, a nested `scoped_iter` over that handle
exits without touching the underlying iterator at all. -/
theorem scoped_iter_exactly_once (b : BaseIter ℕ) (exc exc2 : Bool)
    (h : b.has_aclose = true) :
    (scoped_exit exc ⟨[], b⟩).base.closes = b.closes + 1 ∧
    (scoped_exit exc2 (scoped_enter ⟨[], b⟩)).base = b := by
  constructor
  · simp [scoped_exit, handle_aclose, h]
  · simp [scoped_enter, scoped_exit, handle_aclose, h]

/-- Concrete instance of `scoped_iter_exactly_once`: a closable two-item
iterator, with a raising outer exit and a clean inner exit. -/
theorem scoped_iter_exactly_once_witness :
    (⟨[1, 2], 0, true⟩ : BaseIter ℕ).has_aclose = true ∧
    ((scoped_exit true ⟨[], ⟨[1, 2], 0, true⟩⟩).base.closes = 0 + 1 ∧
      (scoped_exit false (scoped_enter ⟨[], ⟨[1, 2], 0, true⟩⟩)).base
        = (⟨[1, 2], 0, true⟩ : BaseIter ℕ)) :=
  ⟨by decide, scoped_iter_exactly_once ⟨[1, 2], 0, true⟩ true false (by decide)⟩

/-- Claim C3: closing a handle built by any positive number of nested
`borrow` wrappers, any number of times, leaves the underlying iterator
untouched — its `aclose` never runs — and the underlying iterator still
yields its next item afterwards. -/
theorem borrow_never_closes (b : BaseIter ℕ) (d k : Nat) (hd : 1 ≤ d)
    (hc : b.closes = 0) (x : ℕ) (xs : List ℕ) (hi : b.items = x :: xs) :
    (handle_aclose^[k] (borrow^[d] ⟨[], b⟩)).base = b ∧
    (base_anext (handle_aclose^[k] (borrow^[d] ⟨[], b⟩)).base).1 = some x := by
  have hwraps : (borrow^[d] (⟨[], b⟩ : Handle ℕ)).wraps ≠ [] := by
    rw [(borrow_iterate d ⟨[], b⟩).1]
    cases d with
    | zero => exact absurd hd (by decide)
    | succ d => simp [List.replicate_succ]
  have hbase : (handle_aclose^[k] (borrow^[d] (⟨[], b⟩ : Handle ℕ))).base = b := by
    rw [handle_aclose_iterate k _ hwraps]
    exact (borrow_iterate d ⟨[], b⟩).2
  refine ⟨hbase, ?_⟩
  rw [hbase]
  simp [base_anext, hc, hi]

/-- Concrete instance of `borrow_never_closes`: a doubly borrowed handle
closed three times still leaves the underlying iterator able to yield 7. -/
theorem borrow_never_closes_witness :
    1 ≤ 2 ∧ (⟨[7, 8], 0, true⟩ : BaseIter ℕ).closes = 0 ∧
    (⟨[7, 8], 0, true⟩ : BaseIter ℕ).items = 7 :: [8] ∧
    ((handle_aclose^[3] (borrow^[2] ⟨[], ⟨[7, 8], 0, true⟩⟩)).base
        = (⟨[7, 8], 0, true⟩ : BaseIter ℕ) ∧
      (base_anext (handle_aclose^[3] (borrow^[2] ⟨[], ⟨[7, 8], 0, true⟩⟩)).base).1
        = some 7) :=
  ⟨by decide, by decide, by decide,
    borrow_never_closes ⟨[7, 8], 0, true⟩ 2 3 (by decide) (by decide) 7 [8] (by decide)⟩

/-! ### Helper lemmas on the tee fan-out -/

theorem map_upstream_nil {α : Type u} (bufs : List (Option (List α))) :
    bufs.map (fun b => b.map (fun l => l ++ ([] : List α))) = bufs := by
  simp

theorem map_upstream_cons {α : Type u} (u : α) (us : List α)
    (bufs : List (Option (List α))) :
    (append_all u bufs).map (fun b => b.map (fun l => l ++ us))
      = bufs.map (fun b => b.map (fun l => l ++ u :: us)) := by
  simp only [append_all, List.map_map]
  apply List.map_congr_left
  intro a _
  cases a <;> simp [Function.comp]

theorem tee_peer_drain_spec {α : Type u} :
    ∀ (n : Nat) (i : Nat) (st : TeeState α) (bi : List α),
      bi.length + st.upstream.length ≤ n →
      st.buffers[i]? = some (some bi) →
      tee_peer_drain i st = (bi ++ st.upstream, tee_final i st) := by
  intro n
  induction n with
  | zero =>
      rintro i ⟨up, bufs, ha, cl⟩ bi hle hb
      have hbi : bi = [] := List.eq_nil_of_length_eq_zero (by simp only at hle; omega)
      have hup : up = [] := List.eq_nil_of_length_eq_zero (by simp only at hle; omega)
      subst hbi; subst hup
      rw [tee_peer_drain.eq_def]
      split
      · rename_i x rest heq
        dsimp only at heq
        rw [hb] at heq
        cases heq
      · simp [tee_final, map_upstream_nil]
      · rename_i hnc hne
        exact absurd hb hne
  | succ n ih =>
      rintro i ⟨up, bufs, ha, cl⟩ bi hle hb
      rw [tee_peer_drain.eq_def]
      split
      · -- non-empty own buffer: pop the front
        rename_i x rest heq
        dsimp only at heq
        rw [hb] at heq
        obtain rfl : bi = x :: rest := by simpa using heq
        have hlt : i < bufs.length := (List.getElem?_eq_some.mp hb).1
        have hset : (bufs.set i (some rest))[i]? = some (some rest) := by
          rw [List.getElem?_set_eq_of_lt _ hlt]
        have hrec := ih i ⟨up, bufs.set i (some rest), ha, cl⟩ rest
          (show rest.length + up.length ≤ n by
            simp only [List.length_cons] at hle; omega)
          (show (bufs.set i (some rest))[i]? = some (some rest) from hset)
        rw [hrec]
        simp only [tee_final, finish_peer, List.map_set, List.set_set]
        simp
      · -- empty own buffer: advance the upstream
        rename_i heq
        dsimp only at heq
        rw [hb] at heq
        obtain rfl : bi = [] := by simpa using heq
        split
        · -- upstream exhausted: the finally clause runs
          rename_i hu
          dsimp only at hu
          subst hu
          simp [tee_final, map_upstream_nil]
        · -- upstream produced an item
          rename_i u us hu
          dsimp only at hu
          subst hu
          have hlt : i < bufs.length := (List.getElem?_eq_some.mp hb).1
          have hmap : (append_all u bufs)[i]? = some (some [u]) := by
            simp [append_all, List.getElem?_map, hb]
          split
          · rename_i y rest2 heq3
            dsimp only at heq3
            rw [hmap] at heq3
            obtain ⟨rfl, rfl⟩ : u = y ∧ ([] : List α) = rest2 := by
              simpa using heq3
            have hlt2 : i < (append_all u bufs).length := by
              simpa [append_all] using hlt
            have hset : ((append_all u bufs).set i (some []))[i]?
                = some (some ([] : List α)) := by
              rw [List.getElem?_set_eq_of_lt _ hlt2]
            have hrec := ih i ⟨us, (append_all u bufs).set i (some []), ha, cl⟩ []
              (show List.length [] + us.length ≤ n by
                simp only [List.length_cons] at hle; simp; omega)
              (show ((append_all u bufs).set i (some []))[i]? = some (some []) from hset)
            rw [hrec]
            simp only [tee_final, finish_peer, List.map_set, map_upstream_cons, List.set_set]
            simp
          · rename_i hno
            dsimp only at hno
            exact absurd hmap (hno u [])
      · rename_i hnc hne
        cases bi with
        | nil => exact absurd hb hne
        | cons b bs => exact absurd hb (hnc b bs)

theorem tee_peer_drain_eq {α : Type u} (i : Nat) (st : TeeState α) (bi : List α)
    (hb : st.buffers[i]? = some (some bi)) :
    tee_peer_drain i st = (bi ++ st.upstream, tee_final i st) :=
  tee_peer_drain_spec (bi.length + st.upstream.length) i st bi le_rfl hb

theorem all_removed_iff {α : Type u} (bufs : List (Option (List α))) :
    all_removed bufs = true ↔ ∀ j : Nat, ∀ b, bufs[j]? = some b → b = none := by
  simp only [all_removed, List.all_eq_true, Option.isNone_iff_eq_none]
  constructor
  · intro h j b hjb
    exact h b (List.mem_iff_getElem?.mpr ⟨j, hjb⟩)
  · intro h b hmem
    obtain ⟨j, hj⟩ := List.mem_iff_getElem?.mp hmem
    exact h j b hj

theorem tee_final_buffers_ne {α : Type u} (i j : Nat) (st : TeeState α) (hij : j ≠ i) :
    (tee_final i st).buffers[j]?
      = (st.buffers[j]?).map (Option.map (fun l => l ++ st.upstream)) := by
  simp only [tee_final, finish_peer]
  rw [List.getElem?_set_ne (fun h => hij h.symm), List.getElem?_map]

theorem tee_final_buffers_self {α : Type u} (i : Nat) (st : TeeState α)
    (hlt : i < st.buffers.length) :
    (tee_final i st).buffers[i]? = some none := by
  simp only [tee_final, finish_peer]
  rw [List.getElem?_set_eq_of_lt]
  simpa using hlt

/-- Sequential drains of distinct present peers each yield the common
value determined by the buffer plus upstream invariant. -/
theorem drain_seq_yields {α : Type u} :
    ∀ (order : List Nat) (st : TeeState α) (s : List α),
      order.Nodup →
      (∀ j ∈ order, ∃ bj, st.buffers[j]? = some (some bj)) →
      (∀ j : Nat, ∀ bj, st.buffers[j]? = some (some bj) → bj ++ st.upstream = s) →
      (drain_seq order st).1 = order.map (fun _ => s) := by
  intro order
  induction order with
  | nil => intro st s _ _ _; rfl
  | cons i rest ih =>
      intro st s hnd hpres hinv
      obtain ⟨bi, hbi⟩ := hpres i (List.mem_cons_self i rest)
      have hdrain := tee_peer_drain_eq i st bi hbi
      have hi_not : i ∉ rest := (List.nodup_cons.mp hnd).1
      simp only [drain_seq, hdrain, List.map_cons]
      refine congrArg₂ _ (hinv i bi hbi) ?_
      apply ih (tee_final i st) s (List.nodup_cons.mp hnd).2
      · intro j hj
        have hji : j ≠ i := fun h => hi_not (h ▸ hj)
        obtain ⟨bj, hbj⟩ := hpres j (List.mem_cons_of_mem i hj)
        exact ⟨bj ++ st.upstream, by rw [tee_final_buffers_ne i j st hji, hbj]; rfl⟩
      · intro j bj hbj
        by_cases hji : j = i
        · subst hji
          rw [tee_final_buffers_self j st (List.getElem?_eq_some.mp hbi).1] at hbj
          cases hbj
        · rw [tee_final_buffers_ne i j st hji] at hbj
          rcases hj0 : st.buffers[j]? with _ | b0
          · rw [hj0] at hbj; cases hbj
          · rw [hj0] at hbj
            rcases b0 with _ | bj0
            · cases hbj
            · simp only [Option.map_some', Option.some.injEq] at hbj
              have : bj = bj0 ++ st.upstream := by simpa using hbj.symm
              subst this
              have hfin : (tee_final i st).upstream = [] := rfl
              rw [hfin, List.append_nil]
              exact hinv j bj0 hj0

/-- Claim C1: for every source sequence and every n of at least 1, each of
the n peers created by `tee` yields exactly the source items, in upstream
order, once per peer, when the peers are drained to exhaustion one at a
time, in any order. -/
theorem tee_sequential_order (src : TeeSource ℕ) (n : Nat) (hn : 1 ≤ n)
    (order : List Nat) (hnd : order.Nodup) (hlt : ∀ i ∈ order, i < n) :
    (drain_seq order (tee_init src n)).1 = order.map (fun _ => source_items src) := by
  apply drain_seq_yields order _ _ hnd
  · intro j hj
    refine ⟨[], ?_⟩
    simp [tee_init, List.getElem?_replicate, hlt j hj]
  · intro j bj hbj
    simp only [tee_init, List.getElem?_replicate] at hbj
    by_cases hjn : j < n
    · rw [if_pos hjn] at hbj
      obtain rfl : bj = [] := by simpa using hbj.symm
      rfl
    · rw [if_neg hjn] at hbj; cases hbj

/-- Concrete instance of `tee_sequential_order`: two peers over the source
3, 4 drained in the order second peer first, both yield 3, 4. -/
theorem tee_sequential_order_witness :
    (1 : Nat) ≤ 2 ∧ ([1, 0] : List Nat).Nodup ∧ (∀ i ∈ ([1, 0] : List Nat), i < 2) ∧
    (drain_seq [1, 0] (tee_init (TeeSource.fromSync [3, 4]) 2)).1 = [[3, 4], [3, 4]] :=
  ⟨by decide, by decide, by decide, by
    have h := tee_sequential_order (TeeSource.fromSync [3, 4]) 2 (by decide) [1, 0]
      (by decide) (by decide)
    simpa using h⟩

/-- Draining every present peer, one at a time, closes the shared
upstream exactly once when it has an `aclose` method and never
otherwise: the close happens in the `finally` clause of the last peer. -/
theorem drain_seq_closes {α : Type u} :
    ∀ (order : List Nat) (st : TeeState α),
      order ≠ [] → order.Nodup →
      (∀ j : Nat, (∃ b, st.buffers[j]? = some (some b)) ↔ j ∈ order) →
      st.upstream_closes = 0 →
      (drain_seq order st).2.upstream_closes = (if st.has_aclose then 1 else 0) := by
  intro order
  induction order with
  | nil => intro st h; exact absurd rfl h
  | cons i rest ih =>
      intro st _ hnd hpres hcl
      obtain ⟨bi, hbi⟩ := (hpres i).mpr (List.mem_cons_self i rest)
      have hlt : i < st.buffers.length := (List.getElem?_eq_some.mp hbi).1
      have hdrain := tee_peer_drain_eq i st bi hbi
      have hi_not : i ∉ rest := (List.nodup_cons.mp hnd).1
      simp only [drain_seq, hdrain]
      cases rest with
      | nil =>
          -- the drained peer was the last one: its finally clause closes
          have hall : all_removed (tee_final i st).buffers = true := by
            rw [all_removed_iff]
            intro j b hjb
            by_cases hji : j = i
            · subst hji
              rw [tee_final_buffers_self j st hlt] at hjb
              simpa using hjb.symm
            · rw [tee_final_buffers_ne i j st hji] at hjb
              rcases hj0 : st.buffers[j]? with _ | b0
              · rw [hj0] at hjb; cases hjb
              · rcases b0 with _ | bj0
                · rw [hj0] at hjb
                  simpa using hjb.symm
                · exact absurd ((hpres j).mp ⟨bj0, hj0⟩)
                    (by simpa using fun h => hji h)
          simp only [drain_seq]
          show (finish_peer i _).upstream_closes = _
          simp only [finish_peer]
          have : ((tee_final i st).buffers : List (Option (List α))) = _ := rfl
          rw [show ((st.buffers.map (fun b => b.map (fun l => l ++ st.upstream))).set i none)
              = (tee_final i st).buffers from rfl]
          rw [hall]
          simp [hcl]
      | cons r rest2 =>
          -- other peers remain: the sibling list is not yet empty
          have hr_ne : r ≠ i := by
            intro h
            exact hi_not (h ▸ List.mem_cons_self r rest2)
          obtain ⟨br, hbr⟩ := (hpres r).mpr (List.mem_cons_of_mem i (List.mem_cons_self r rest2))
          have hnotall : all_removed (tee_final i st).buffers = false := by
            rw [← Bool.not_eq_true, all_removed_iff]
            intro hforall
            have := hforall r (some (br ++ st.upstream))
              (by rw [tee_final_buffers_ne i r st hr_ne, hbr]; rfl)
            cases this
          have hclx : (tee_final i st).upstream_closes = 0 := by
            show (finish_peer i _).upstream_closes = 0
            simp only [finish_peer]
            rw [show ((st.buffers.map (fun b => b.map (fun l => l ++ st.upstream))).set i none)
                = (tee_final i st).buffers from rfl]
            rw [hnotall]
            simp [hcl]
          have hha : (tee_final i st).has_aclose = st.has_aclose := rfl
          rw [← hha]
          apply ih (tee_final i st) (by simp) (List.nodup_cons.mp hnd).2 _ hclx
          intro j
          constructor
          · rintro ⟨b, hjb⟩
            by_cases hji : j = i
            · subst hji
              rw [tee_final_buffers_self j st hlt] at hjb
              cases hjb
            · rw [tee_final_buffers_ne i j st hji] at hjb
              rcases hj0 : st.buffers[j]? with _ | b0
              · rw [hj0] at hjb; cases hjb
              · rcases b0 with _ | bj0
                · rw [hj0] at hjb; cases hjb
                · have hj_mem := (hpres j).mp ⟨bj0, hj0⟩
                  rcases List.mem_cons.mp hj_mem with h | h
                  · exact absurd h hji
                  · exact h
          · intro hj
            have hji : j ≠ i := fun h => hi_not (h ▸ hj)
            obtain ⟨bj, hbj⟩ := (hpres j).mpr (List.mem_cons_of_mem i hj)
            exact ⟨bj ++ st.upstream, by rw [tee_final_buffers_ne i j st hji, hbj]; rfl⟩

/-- Claim C8 (amended): when the last peer finishes, the shared upstream
iterator is closed exactly when it exposes an `aclose` method, regardless
of whether the fan-out created it (from a synchronous iterable) or the
caller passed in an already-existing async iterator; an external iterator
without `aclose` is left untouched. -/
theorem tee_upstream_close (src : TeeSource ℕ) (n : Nat) (hn : 1 ≤ n) :
    (drain_seq (List.range n) (tee_init src n)).2.upstream_closes
      = (if source_has_aclose src then 1 else 0) := by
  have h := drain_seq_closes (List.range n) (tee_init src n)
    (by intro h; rw [List.range_eq_nil] at h; omega)
    (List.nodup_range n)
    (by
      intro j
      simp only [tee_init, List.getElem?_replicate, List.mem_range]
      constructor
      · rintro ⟨b, hb⟩
        by_cases hj : j < n
        · exact hj
        · rw [if_neg hj] at hb; cases hb
      · intro hj
        exact ⟨[], by rw [if_pos hj]⟩)
    rfl
  simpa using h

/-- Concrete instance of `tee_upstream_close`: an external async iterator
without `aclose` is not closed by the fan-out. -/
theorem tee_upstream_close_witness :
    (1 : Nat) ≤ 1 ∧
    (drain_seq (List.range 1)
        (tee_init (TeeSource.fromAsyncIter [5] false) 1)).2.upstream_closes = 0 :=
  ⟨le_rfl, by
    have h := tee_upstream_close (TeeSource.fromAsyncIter [5] false) 1 le_rfl
    simpa using h⟩

/-- Claim C8 counterexample: an externally created async iterator that
does expose `aclose` is closed by the cleanup of the last peer, so the
fan-out does not restrict the close to upstreams it owns. -/
theorem tee_closes_external_counterexample :
    ¬ ((drain_seq [0]
        (tee_init (TeeSource.fromAsyncIter [5] true) 1)).2.upstream_closes = 0) := by
  have h := tee_peer_drain_eq 0 (tee_init (TeeSource.fromAsyncIter [5] true) 1) []
    (by decide)
  simp only [drain_seq, h]
  decide

/-- Claim C9 counterexample: constructing a fan-out with n below 1 does
not fail with an InvalidArgument error; it succeeds. -/
theorem tee_nonpositive_counterexample :
    (tee_new (TeeSource.fromSync ([1, 2] : List ℕ)) (-1)).isOk = true := by
  decide

/-- Claim C9 (amended): `Tee.__init__` performs no validation of n; for
every n below 1 the construction succeeds and returns a fan-out with
zero peers (an empty sequence of iterators) instead of raising. -/
theorem tee_nonpositive_empty (src : TeeSource ℕ) (n : Int) (hn : n < 1) :
    tee_new src n = Except.ok (tee_init src 0) ∧ tee_peer_count (tee_init src 0) = 0 := by
  constructor
  · simp only [tee_new, Except.ok.injEq]
    rw [Int.toNat_of_nonpos (by omega)]
  · rfl

/-- Concrete instance of `tee_nonpositive_empty` at n equal to -3. -/
theorem tee_nonpositive_empty_witness :
    (-3 : Int) < 1 ∧
    (tee_new (TeeSource.fromSync ([9] : List ℕ)) (-3)
        = Except.ok (tee_init (TeeSource.fromSync [9]) 0) ∧
      tee_peer_count (tee_init (TeeSource.fromSync ([9] : List ℕ)) 0) = 0) :=
  ⟨by decide, tee_nonpositive_empty (TeeSource.fromSync [9]) (-3) (by decide)⟩

end Asyncstdlib
